import Mathlib

/-!
Verification of the voice-prompter repository (files
`src/voice_prompter/cli.py` and `src/prompter.py`) against its
natural-language specification.  The Python functions are shallowly
embedded as Lean functions over `List Char` (strings) and `Nat`/`ℚ`
(counters and thresholds); the `run_prompter` command loop is embedded
as an explicit state machine.
-/

namespace VoicePrompter

/-- Character is treated as whitespace, mirroring the regex whitespace
class used by the Python code on ASCII input. -/
def isSpaceChar (c : Char) : Bool :=
  c == ' ' || c == '\t' || c == '\n' || c == '\r' || c == '\x0b' || c == '\x0c'

/-- ASCII lowercasing, as `str.lower` acts on the ASCII characters the
program compares against (`key = sys.stdin.read(1).lower()`). -/
def lowerChar (c : Char) : Char :=
  if h : 65 ≤ c.toNat ∧ c.toNat ≤ 90 then
    ⟨⟨c.toNat + 32, by show c.toNat + 32 < 4294967296; omega⟩,
      Or.inl (by show c.toNat + 32 < 55296; omega)⟩
  else c

/-- State of the discrete advancement engine implemented by the
`while current < total` loop of `run_prompter` (cli.py lines 201-234):
`active i` is the loop body with `current = i`, `done` is natural
completion (`current` reached `total` and the loop exited), `exited`
is the early `return` on the quit key. -/
inductive EngState where
  | active (i : Nat)
  | done
  | exited
deriving DecidableEq

/-- Command taken from the shared queue `cmd_queue`: a (lowercased) key
press enqueued by `keyboard_listener`, or the `('voice', 'next')`
signal enqueued by `voice_listener`. -/
inductive Command where
  | keyCmd (k : Char)
  | voiceNext
deriving DecidableEq

/-- What `keyboard_listener` (cli.py lines 108-122) enqueues for a raw
key press: the key, lowercased, tagged as a key command. -/
def keyboardMap (c : Char) : Command :=
  Command.keyCmd (lowerChar c)

/-- Outcome of one pass of the inner `while True` command wait of
`run_prompter` on one queue element. -/
inductive Reaction where
  | continueWaiting
  | advanceTo (j : Nat)
  | exitLoop
deriving DecidableEq

/-- The `if/elif` chain of `run_prompter` (cli.py lines 220-231)
applied to one dequeued command when the cursor is at `i`:
`'q'` returns, `'b'` with `current > 0` decrements and breaks, a key
in `'\n\r '` increments and breaks, a voice `next` increments and
breaks, and anything else keeps waiting. -/
def handleCmd (i : Nat) (c : Command) : Reaction :=
  match c with
  | .keyCmd k =>
    if k = 'q' then .exitLoop
    else if k = 'b' ∧ 0 < i then .advanceTo (i - 1)
    else if k = '\n' ∨ k = '\r' ∨ k = ' ' then .advanceTo (i + 1)
    else .continueWaiting
  | .voiceNext => .advanceTo (i + 1)

/-- One step of the discrete engine over `total` phrases: in `active i`
the command is handled by the `if/elif` chain, and after a break the
outer `while current < total` guard decides between continuing at the
new index and natural completion.  `done` and `exited` process no
further commands. -/
def step (total : Nat) (s : EngState) (c : Command) : EngState :=
  match s with
  | .active i =>
    match handleCmd i c with
    | .continueWaiting => .active i
    | .exitLoop => .exited
    | .advanceTo j => if j < total then .active j else .done
  | .done => .done
  | .exited => .exited

/-- Full per-session state of `run_prompter`: the loop state plus the
`use_voice` flag, which is fixed before the loop starts and is never
written inside the loop. -/
structure PState where
  eng : EngState
  useVoice : Bool
deriving DecidableEq

/-- One step of `run_prompter` on the full state: only the loop state
changes; no command handler writes `use_voice`. -/
def stepFull (total : Nat) (s : PState) (c : Command) : PState :=
  { s with eng := step total s.eng c }

/-- States of the discrete engine reachable from the initial state
`current = 0` (the engine only starts on a non-empty phrase list) by
processing queue commands. -/
inductive Reachable (total : Nat) : EngState → Prop where
  | init : 0 < total → Reachable total (.active 0)
  | next : ∀ {s} (c : Command), Reachable total s → Reachable total (step total s c)

/-- A command is a Next command: the voice listener's signal, or one of
the keys space, `\n`, `\r` that the loop treats as next. -/
def isNextCommand (c : Command) : Prop :=
  c = .voiceNext ∨ c = .keyCmd ' ' ∨ c = .keyCmd '\n' ∨ c = .keyCmd '\r'

/-- The cursor value represented by an engine state: the index in
`active i`, the count `total` in `done` (the loop guard failed), and
none in `exited` (the session ended by quitting, not by the cursor). -/
def cursorOf (total : Nat) : EngState → Option Nat
  | .active i => some i
  | .done => some total
  | .exited => none

/-- A key that is none of the five recognized keys makes the command
chain fall through with no effect. -/
theorem handleCmd_other (i : Nat) (k : Char)
    (hq : k ≠ 'q') (hb : k ≠ 'b') (hs : k ≠ ' ') (hn : k ≠ '\n')
    (hr : k ≠ '\r') : handleCmd i (.keyCmd k) = .continueWaiting := by
  have h2 : ¬ (k = 'b' ∧ 0 < i) := fun h => hb h.1
  have h3 : ¬ (k = '\n' ∨ k = '\r' ∨ k = ' ') := by
    rintro (h | h | h)
    · exact hn h
    · exact hr h
    · exact hs h
  simp only [handleCmd]
  rw [if_neg hq, if_neg h2, if_neg h3]

/-- Invariant: every reachable `active` state has its index below `total`. -/
theorem reachable_active_lt {total : Nat} {s : EngState}
    (h : Reachable total s) : ∀ i, s = .active i → i < total := by
  induction h with
  | init h0 => intro i hi; cases hi; exact h0
  | @next s c _ ih =>
    intro i hi
    cases s with
    | done => simp [step] at hi
    | exited => simp [step] at hi
    | active j =>
      have hj : j < total := ih j rfl
      simp only [step] at hi
      cases hc : handleCmd j c with
      | continueWaiting => rw [hc] at hi; cases hi; exact hj
      | exitLoop => rw [hc] at hi; cases hi
      | advanceTo m =>
        rw [hc] at hi
        dsimp only at hi
        by_cases hm : m < total
        · rw [if_pos hm] at hi; cases hi; exact hm
        · rw [if_neg hm] at hi; cases hi

/-- C2: in the discrete engine, a Next command at the last index
`total - 1` transitions to the terminal `done` state, which no further
command changes; a Previous command (key `'b'`) at index 0 leaves the
state unchanged; a Quit command (key `'q'`) from any active state
transitions to `exited`, which processes no further commands. -/
theorem claim2_discrete_transitions (total i : Nat) (c c' : Command) :
    (0 < total → isNextCommand c → step total (.active (total - 1)) c = .done) ∧
    step total .done c' = .done ∧
    step total (.active 0) (keyboardMap 'b') = .active 0 ∧
    step total (.active i) (keyboardMap 'q') = .exited ∧
    step total .exited c' = .exited := by
  refine ⟨?_, rfl, ?_, ?_, rfl⟩
  · intro hpos hnext
    have hadv : handleCmd (total - 1) c = .advanceTo (total - 1 + 1) := by
      rcases hnext with h | h | h | h <;> subst h <;> simp [handleCmd]
    have htot : total - 1 + 1 = total := by omega
    simp [step, hadv, htot]
  · have hb : keyboardMap 'b' = .keyCmd 'b' := by decide
    rw [hb]
    simp [step, handleCmd]
  · have hq : keyboardMap 'q' = .keyCmd 'q' := by decide
    rw [hq]
    simp [step, handleCmd]

/-- Witness for C2 at `total = 3`: a space-key Next at the last index 2
reaches `done`. -/
theorem claim2_discrete_transitions_witness :
    step 3 (.active 2) (.keyCmd ' ') = .done :=
  (claim2_discrete_transitions 3 0 (.keyCmd ' ') .voiceNext).1 (by decide)
    (Or.inr (Or.inl rfl))

/-- C3: for every reachable state of the discrete engine the cursor
value satisfies `0 ≤ n ≤ total`, with `n = total` exactly in the
terminal completion state `done`; and `done` is terminal under every
command.  The cursor is changed by no operation other than `step`
(processing a command): `step` is the only transformer of `EngState`
in this development, mirroring that only the `if/elif` command chain of
`run_prompter` assigns `current`. -/
theorem claim3_cursor_invariant (total : Nat) (s : EngState)
    (h : Reachable total s) (c : Command) (n : Nat) :
    (cursorOf total s = some n → n ≤ total ∧ (n = total ↔ s = .done)) ∧
    step total .done c = .done := by
  refine ⟨?_, rfl⟩
  intro hn
  cases s with
  | active i =>
    have hi : i < total := reachable_active_lt h i rfl
    simp only [cursorOf] at hn
    cases hn
    refine ⟨by omega, ?_, ?_⟩
    · intro he; omega
    · intro he; cases he
  | done =>
    simp only [cursorOf] at hn
    cases hn
    exact ⟨le_refl _, by simp⟩
  | exited => simp [cursorOf] at hn

/-- Witness for C3: the state after one space-key advance from the
initial state of a 2-phrase session has cursor 1, which is at most 2
and is not the completion value. -/
theorem claim3_cursor_invariant_witness :
    (1 : Nat) ≤ 2 ∧ ((1 : Nat) = 2 ↔ EngState.active 1 = .done) := by
  have h0 : Reachable 2 (.active 0) := Reachable.init (by decide)
  have h1 := @Reachable.next 2 (EngState.active 0) (Command.keyCmd ' ') h0
  have h2 : step 2 (.active 0) (.keyCmd ' ') = .active 1 := by decide
  rw [h2] at h1
  exact (claim3_cursor_invariant 2 (.active 1) h1 .voiceNext 1).1 rfl

/-- C10: a key command whose key is none of `'q'`, `'b'`, space,
newline, carriage return makes the inner wait loop continue waiting:
the cursor is unchanged and no advance, exit or redraw happens. -/
theorem claim10_unrecognized_keys (total i : Nat) (k : Char)
    (hq : k ≠ 'q') (hb : k ≠ 'b') (hs : k ≠ ' ') (hn : k ≠ '\n')
    (hr : k ≠ '\r') :
    handleCmd i (.keyCmd k) = .continueWaiting ∧
    step total (.active i) (.keyCmd k) = .active i := by
  have h1 := handleCmd_other i k hq hb hs hn hr
  exact ⟨h1, by simp [step, h1]⟩

/-- Witness for C10 at key `'x'` and index 5. -/
theorem claim10_unrecognized_keys_witness :
    handleCmd 5 (.keyCmd 'x') = .continueWaiting ∧
    step 9 (.active 5) (.keyCmd 'x') = .active 5 :=
  claim10_unrecognized_keys 9 5 'x' (by decide) (by decide) (by decide)
    (by decide) (by decide)

/-- C6 counterexample: processing the key `'v'` in `active 0` with the
voice flag on leaves the full state unchanged — in particular the
voice flag is not flipped to `false`, and the enqueued command is the
plain key command `'v'`, not a dedicated toggle: the command loop of
`run_prompter` has no ToggleVoice case at all. -/
theorem claim6_counterexample :
    keyboardMap 'v' = .keyCmd 'v' ∧
    stepFull 3 ⟨.active 0, true⟩ (keyboardMap 'v') = ⟨.active 0, true⟩ ∧
    (stepFull 3 ⟨.active 0, true⟩ (keyboardMap 'v')).useVoice ≠ false := by
  exact ⟨by decide, by decide, by decide⟩

/-- C6 amended: the Keyboard Source enqueues `'v'` as an ordinary
(lowercased) key command; no ToggleVoice command exists, and processing
the `'v'` key in any active state leaves both the cursor index and the
voice flag unchanged. -/
theorem claim6_amended (total i : Nat) (v : Bool) :
    keyboardMap 'v' = .keyCmd 'v' ∧
    stepFull total ⟨.active i, v⟩ (keyboardMap 'v') = ⟨.active i, v⟩ := by
  have hv : keyboardMap 'v' = .keyCmd 'v' := by decide
  refine ⟨hv, ?_⟩
  rw [hv]
  have h1 := handleCmd_other i 'v' (by decide) (by decide) (by decide)
    (by decide) (by decide)
  simp [stepFull, step, h1]

/-- Python word character on ASCII input: alphanumeric or underscore,
the class kept by the substitution removing every other non-space. -/
def isWordChar (c : Char) : Bool :=
  c.isAlphanum || c == '_'

/-- The substitution step of `normalize_text` (cli.py line 40): remove
every character that is neither a word character nor whitespace. -/
def filterKeep (cs : List Char) : List Char :=
  cs.filter (fun c => isWordChar c || isSpaceChar c)

/-- Helper of `pySplit`: the accumulator holds the characters of the
word currently being read, in reverse. -/
def pySplitAux : List Char → List Char → List (List Char)
  | [], acc => if acc = [] then [] else [acc.reverse]
  | c :: rest, acc =>
    if isSpaceChar c then
      if acc = [] then pySplitAux rest [] else acc.reverse :: pySplitAux rest []
    else pySplitAux rest (c :: acc)

/-- Python `str.split()` with no separator: split on whitespace runs,
discarding all empty pieces. -/
def pySplit (cs : List Char) : List (List Char) :=
  pySplitAux cs []

/-- Python `' '.join(words)`: interleave a single space between the
pieces. -/
def joinSpace : List (List Char) → List Char
  | [] => []
  | [w] => w
  | w :: ws => w ++ ' ' :: joinSpace ws

/-- The function `normalize_text` of cli.py lines 38-42: lowercase,
strip punctuation, collapse whitespace. -/
def normalize_text (cs : List Char) : List Char :=
  joinSpace (pySplit (filterKeep (cs.map lowerChar)))

/-- The body of `texts_match` (cli.py lines 45-60) after both texts
were normalized: empty normalized text on either side fails, an empty
expected word set fails, otherwise the distinct-word overlap fraction
is compared with the threshold. -/
def matchNormed (sn en : List Char) (t : ℚ) : Bool :=
  if sn = [] ∨ en = [] then false
  else if (pySplit en).dedup = [] then false
  else
    decide (t ≤
      (((pySplit en).dedup.filter (fun w => w ∈ (pySplit sn).dedup)).length : ℚ) /
        (((pySplit en).dedup).length : ℚ))

/-- The function `texts_match` of cli.py lines 45-60. -/
def texts_match (spoken expected : List Char) (t : ℚ) : Bool :=
  matchNormed (normalize_text spoken) (normalize_text expected) t

/-- The set of distinct normalized words of a text, as the claim about
the matcher describes it: the deduplicated word list of the normalized
text. -/
def distinctWords (cs : List Char) : List (List Char) :=
  (pySplit (normalize_text cs)).dedup

/-- A nonempty accumulator guarantees at least one produced word. -/
theorem pySplitAux_acc_ne_nil :
    ∀ (cs acc : List Char), acc ≠ [] → pySplitAux cs acc ≠ [] := by
  intro cs
  induction cs with
  | nil =>
    intro acc h
    simp only [pySplitAux]
    rw [if_neg h]
    simp
  | cons c rest ih =>
    intro acc h
    simp only [pySplitAux]
    by_cases hsp : isSpaceChar c = true
    · rw [if_pos hsp, if_neg h]; simp
    · rw [if_neg hsp]; exact ih (c :: acc) (by simp)

/-- A non-space character in the input guarantees at least one word. -/
theorem pySplitAux_ne_nil_of_mem :
    ∀ (cs acc : List Char) (c0 : Char), c0 ∈ cs → isSpaceChar c0 = false →
      pySplitAux cs acc ≠ [] := by
  intro cs
  induction cs with
  | nil => intro acc c0 h _; simp at h
  | cons c rest ih =>
    intro acc c0 hmem hc0
    simp only [pySplitAux]
    by_cases hsp : isSpaceChar c = true
    · rw [if_pos hsp]
      have hc0r : c0 ∈ rest := by
        rcases List.mem_cons.mp hmem with heq | h
        · subst heq; rw [hc0] at hsp; cases hsp
        · exact h
      by_cases h : acc = []
      · rw [if_pos h]; exact ih [] c0 hc0r hc0
      · rw [if_neg h]; simp
    · rw [if_neg hsp]
      exact pySplitAux_acc_ne_nil rest (c :: acc) (by simp)

/-- Every word produced by the whitespace split is nonempty and free of
whitespace characters. -/
theorem pySplitAux_words :
    ∀ (cs acc : List Char), (∀ c ∈ acc, isSpaceChar c = false) →
      ∀ w ∈ pySplitAux cs acc, w ≠ [] ∧ ∀ c ∈ w, isSpaceChar c = false := by
  intro cs
  induction cs with
  | nil =>
    intro acc ha w hw
    simp only [pySplitAux] at hw
    by_cases h : acc = []
    · rw [if_pos h] at hw; simp at hw
    · rw [if_neg h] at hw
      simp only [List.mem_singleton] at hw
      subst hw
      refine ⟨by simpa using h, ?_⟩
      intro c hc
      exact ha c (List.mem_reverse.mp hc)
  | cons c0 rest ih =>
    intro acc ha w hw
    simp only [pySplitAux] at hw
    by_cases hsp : isSpaceChar c0 = true
    · rw [if_pos hsp] at hw
      by_cases h : acc = []
      · rw [if_pos h] at hw
        exact ih [] (by simp) w hw
      · rw [if_neg h] at hw
        rcases List.mem_cons.mp hw with hw | hw
        · subst hw
          exact ⟨by simpa using h, fun c hc => ha c (List.mem_reverse.mp hc)⟩
        · exact ih [] (by simp) w hw
    · rw [if_neg hsp] at hw
      have hsp' : isSpaceChar c0 = false := by simpa using hsp
      refine ih (c0 :: acc) ?_ w hw
      intro c hc
      rcases List.mem_cons.mp hc with rfl | hc
      · exact hsp'
      · exact ha c hc

/-- A character of the head word is a character of the joined text. -/
theorem mem_joinSpace_head {a : Char} {w : List Char}
    (ws : List (List Char)) (h : a ∈ w) : a ∈ joinSpace (w :: ws) := by
  cases ws with
  | nil => simpa [joinSpace] using h
  | cons w2 ws2 =>
    simp only [joinSpace, List.mem_append]
    exact Or.inl h

/-- A nonempty normalized text splits into at least one word. -/
theorem pySplit_normalize_ne_nil {e : List Char}
    (h : normalize_text e ≠ []) : pySplit (normalize_text e) ≠ [] := by
  cases hws : pySplit (filterKeep (e.map lowerChar)) with
  | nil =>
    exfalso
    apply h
    simp only [normalize_text, hws, joinSpace]
  | cons w ws' =>
    have hw : w ≠ [] ∧ ∀ c ∈ w, isSpaceChar c = false := by
      refine pySplitAux_words (filterKeep (e.map lowerChar)) [] (by simp) w ?_
      rw [show pySplitAux (filterKeep (e.map lowerChar)) [] =
        pySplit (filterKeep (e.map lowerChar)) from rfl, hws]
      simp
    obtain ⟨c, hc⟩ := List.exists_mem_of_ne_nil w hw.1
    have hcn : c ∈ normalize_text e := by
      simp only [normalize_text, hws]
      exact mem_joinSpace_head ws' hc
    exact pySplitAux_ne_nil_of_mem (normalize_text e) [] c hcn (hw.2 c hc)

/-- C1: the matcher returns true exactly when both normalized texts are
nonempty and the fraction of distinct normalized expected words that
also occur among the distinct normalized spoken words is at least the
threshold; an empty word set on either side yields false. -/
theorem claim1_matcher_spec (s e : List Char) (t : ℚ) :
    (texts_match s e t = true ↔
      (normalize_text s ≠ [] ∧ normalize_text e ≠ [] ∧
        t ≤ (((distinctWords e).filter (fun w => w ∈ distinctWords s)).length : ℚ) /
          ((distinctWords e).length : ℚ))) ∧
    ((distinctWords s = [] ∨ distinctWords e = []) → texts_match s e t = false) := by
  constructor
  · unfold texts_match matchNormed
    by_cases h1 : normalize_text s = [] ∨ normalize_text e = []
    · rw [if_pos h1]
      simp only [Bool.false_eq_true, false_iff]
      rintro ⟨hs, he, -⟩
      rcases h1 with h | h
      · exact hs h
      · exact he h
    · rw [if_neg h1]
      push_neg at h1
      obtain ⟨hs, he⟩ := h1
      have hwe : (pySplit (normalize_text e)).dedup ≠ [] := by
        simpa [List.dedup_eq_nil] using pySplit_normalize_ne_nil he
      rw [if_neg hwe]
      simp only [decide_eq_true_eq, distinctWords]
      constructor
      · intro hr; exact ⟨hs, he, hr⟩
      · intro hr; exact hr.2.2
  · intro h
    unfold texts_match matchNormed
    by_cases g1 : normalize_text s = [] ∨ normalize_text e = []
    · rw [if_pos g1]
    · rw [if_neg g1]
      push_neg at g1
      rcases h with h | h
      · exfalso
        apply pySplit_normalize_ne_nil g1.1
        simpa [distinctWords, List.dedup_eq_nil] using h
      · rw [if_pos (by simpa [distinctWords] using h)]

/-- Witness for C1 at the spec's own example: spoken
`"The quick brown fox"`, expected `"the Quick, brown FOX!"`,
threshold `2/5`. -/
theorem claim1_matcher_spec_witness :
    texts_match ("The quick brown fox".data) ("the Quick, brown FOX!".data)
      (2 / 5) = true := by
  apply (claim1_matcher_spec ("The quick brown fox".data)
      ("the Quick, brown FOX!".data) (2 / 5)).1.mpr
  refine ⟨by decide, by decide, ?_⟩
  have hk : ((distinctWords ("the Quick, brown FOX!".data)).filter
      (fun w => w ∈ distinctWords ("The quick brown fox".data))).length = 4 := by
    decide
  have hn : (distinctWords ("the Quick, brown FOX!".data)).length = 4 := by
    decide
  rw [hk, hn]
  norm_num

/-- Result of one audio-capture attempt of `voice_listener` (cli.py
lines 140-154), as seen by its exception handlers. -/
inductive Transcription where
  | waitTimeout
  | unknownValue
  | requestError
  | success (sp : List Char)

/-- The commands enqueued by one capture attempt of `voice_listener`
with the current expected phrase: a wait timeout or an
`UnknownValueError` enqueues nothing, a `RequestError` enqueues one
voice next, and a successful transcription enqueues a voice next
exactly when the fuzzy match succeeds. -/
def voiceEmit (expected : List Char) (t : ℚ) : Transcription → List Command
  | .waitTimeout => []
  | .unknownValue => []
  | .requestError => [.voiceNext]
  | .success sp => if texts_match sp expected t then [.voiceNext] else []

/-- C4: per capture attempt, a could-not-understand failure emits no
command, a backend/network failure emits exactly one Next command, and
a successful transcription emits a Next command iff the fuzzy match
against the current expected unit succeeds at the threshold. -/
theorem claim4_voice_commands (e sp : List Char) (t : ℚ) :
    voiceEmit e t .unknownValue = [] ∧
    voiceEmit e t .requestError = [.voiceNext] ∧
    (voiceEmit e t (.success sp) = [.voiceNext] ↔ texts_match sp e t = true) := by
  refine ⟨rfl, rfl, ?_⟩
  by_cases h : texts_match sp e t = true
  · simp [voiceEmit, h]
  · simp [voiceEmit, h]

/-- Concrete evaluation of the matcher on identical short texts: every
expected word occurs, so the overlap fraction 2/2 clears the default
threshold 2/5. -/
theorem texts_match_go_on :
    texts_match ("go on".data) ("go on".data) (2 / 5) = true := by
  unfold texts_match matchNormed
  rw [if_neg (by decide), if_neg (by decide)]
  have hk : ((pySplit (normalize_text ("go on".data))).dedup.filter
      (fun w => w ∈ (pySplit (normalize_text ("go on".data))).dedup)).length = 2 := by
    decide
  have hn : ((pySplit (normalize_text ("go on".data))).dedup).length = 2 := by
    decide
  rw [hk, hn]
  simp only [decide_eq_true_eq]
  norm_num

/-- Witness for C4: with expected `"go on"` and threshold `2/5`, the
spoken text `"go on"` makes the success case emit one Next command. -/
theorem claim4_voice_commands_witness :
    voiceEmit ("go on".data) (2 / 5) (.success "go on".data) = [.voiceNext] :=
  (claim4_voice_commands ("go on".data) ("go on".data) (2 / 5)).2.2.mpr
    texts_match_go_on

/-- C9: the matcher is antitone in the threshold: a match at the larger
threshold is a match at the smaller one. -/
theorem claim9_threshold_antitone (s e : List Char) (t1 t2 : ℚ)
    (h12 : t1 ≤ t2) (h : texts_match s e t2 = true) :
    texts_match s e t1 = true := by
  unfold texts_match matchNormed at h ⊢
  by_cases g1 : normalize_text s = [] ∨ normalize_text e = []
  · rw [if_pos g1] at h; cases h
  · rw [if_neg g1] at h ⊢
    by_cases g2 : (pySplit (normalize_text e)).dedup = []
    · rw [if_pos g2] at h; cases h
    · rw [if_neg g2] at h ⊢
      simp only [decide_eq_true_eq] at h ⊢
      exact le_trans h12 h

/-- Witness for C9: a full overlap matching at threshold `2/5` also
matches at threshold `1/4`. -/
theorem claim9_threshold_antitone_witness :
    texts_match ("go on".data) ("go on".data) (1 / 4) = true :=
  claim9_threshold_antitone ("go on".data) ("go on".data) (1 / 4) (2 / 5)
    (by norm_num) texts_match_go_on

/-- Sentence-terminal punctuation of the split pattern of
`split_phrases` (cli.py line 24). -/
def isSentEnd (c : Char) : Bool :=
  c == '.' || c == '!' || c == '?'

/-- Whether a list starts with a whitespace character. -/
def headIsSpace : List Char → Bool
  | [] => false
  | c :: _ => isSpaceChar c

/-- The sentence split of `split_phrases`: split after a sentence-end
character that is followed by whitespace, consuming the whitespace run.
The accumulator holds the current piece in reverse; the flag records
that a separator whitespace run is being consumed. -/
def sentAux : List Char → List Char → Bool → List (List Char)
  | [], acc, _ => [acc.reverse]
  | c :: rest, acc, skipping =>
    if skipping && isSpaceChar c then sentAux rest [] true
    else if isSentEnd c && headIsSpace rest then
      (c :: acc).reverse :: sentAux rest [] true
    else sentAux rest (c :: acc) false

/-- The comma split of `split_phrases` (cli.py line 31): split at each
comma, consuming the comma and the following whitespace run. -/
def commaAux : List Char → List Char → Bool → List (List Char)
  | [], acc, _ => [acc.reverse]
  | c :: rest, acc, skipping =>
    if skipping && isSpaceChar c then commaAux rest [] true
    else if c == ',' then acc.reverse :: commaAux rest [] true
    else commaAux rest (c :: acc) false

/-- Python `str.strip()`: drop whitespace from both ends. -/
def pstrip (cs : List Char) : List Char :=
  ((cs.dropWhile isSpaceChar).reverse.dropWhile isSpaceChar).reverse

/-- The list comprehension of cli.py line 32: strip each comma piece
and keep the nonempty ones. -/
def commaPieces (p : List Char) : List (List Char) :=
  ((commaAux p [] false).map pstrip).filter (fun sp => !sp.isEmpty)

/-- The per-phrase body of the loop of `split_phrases` (cli.py lines
26-34): strip, drop if empty, comma-split if longer than the maximum,
otherwise keep whole. -/
def processPhrase (maxLength : Nat) (p0 : List Char) : List (List Char) :=
  if pstrip p0 = [] then []
  else if maxLength < (pstrip p0).length then commaPieces (pstrip p0)
  else [pstrip p0]

/-- The function `split_phrases` of cli.py lines 22-35. -/
def split_phrases (text : List Char) (maxLength : Nat) : List (List Char) :=
  (sentAux text [] false).flatMap (processPhrase maxLength)

/-- Result of the startup checks of `main` (cli.py lines 269-273): an
empty phrase list is a fatal error reported before `run_prompter` is
ever called. -/
inductive MainResult where
  | configError
  | ran (phrases : List (List Char))
deriving DecidableEq

/-- The guard of `main` around the segmenter, with the default maximum
length 100. -/
def mainCheck (text : List Char) : MainResult :=
  if split_phrases text 100 = [] then .configError else .ran (split_phrases text 100)

/-- The units appear, in order, as disjoint contiguous substrings of
the text. -/
inductive Embeds : List (List Char) → List Char → Prop where
  | nil (t : List Char) : Embeds [] t
  | cons (u : List Char) {us : List (List Char)} (pre : List Char)
      {rest : List Char} (h : Embeds us rest) : Embeds (u :: us) (pre ++ u ++ rest)

theorem Embeds_mono_pre {us : List (List Char)} {t : List Char}
    (pre : List Char) (h : Embeds us t) : Embeds us (pre ++ t) := by
  cases h with
  | nil t => exact Embeds.nil _
  | cons u pre2 h2 =>
    have h3 := Embeds.cons u (pre ++ pre2) h2
    simpa [List.append_assoc] using h3

theorem Embeds_mono_post {us : List (List Char)} {t : List Char}
    (post : List Char) (h : Embeds us t) : Embeds us (t ++ post) := by
  induction h with
  | nil t => exact Embeds.nil _
  | cons u pre h2 ih =>
    have h3 := Embeds.cons u pre ih
    simpa [List.append_assoc] using h3

theorem Embeds_append {a b : List (List Char)} {t1 t2 : List Char}
    (h1 : Embeds a t1) (h2 : Embeds b t2) : Embeds (a ++ b) (t1 ++ t2) := by
  induction h1 with
  | nil t => exact Embeds_mono_pre t h2
  | cons u pre h ih =>
    rw [List.cons_append]
    have h3 := Embeds.cons u pre ih
    simpa [List.append_assoc] using h3

theorem Embeds_filter (q : List Char → Bool) {us : List (List Char)}
    {t : List Char} (h : Embeds us t) : Embeds (us.filter q) t := by
  induction h with
  | nil t => exact Embeds.nil _
  | cons u pre h2 ih =>
    by_cases hq : q u = true
    · rw [List.filter_cons_of_pos hq]
      exact Embeds.cons u pre ih
    · rw [List.filter_cons_of_neg hq]
      have h3 := Embeds_mono_pre (pre ++ u) ih
      simpa [List.append_assoc] using h3

/-- Decomposition of a string around its stripped core. -/
theorem pstrip_decomp (u : List Char) :
    u = u.takeWhile isSpaceChar ++ pstrip u ++
      ((u.dropWhile isSpaceChar).reverse.takeWhile isSpaceChar).reverse := by
  unfold pstrip
  conv_lhs => rw [← List.takeWhile_append_dropWhile (p := isSpaceChar) (l := u)]
  rw [List.append_assoc]
  congr 1
  conv_lhs => rw [← List.reverse_reverse (List.dropWhile isSpaceChar u)]
  rw [← List.reverse_append]
  congr 1
  conv_lhs => rw [← List.takeWhile_append_dropWhile (p := isSpaceChar)
    (l := (List.dropWhile isSpaceChar u).reverse)]

theorem pstrip_sandwich (u : List Char) : ∃ a b, u = a ++ pstrip u ++ b :=
  ⟨u.takeWhile isSpaceChar,
    ((u.dropWhile isSpaceChar).reverse.takeWhile isSpaceChar).reverse,
    pstrip_decomp u⟩

theorem mem_of_mem_pstrip {a : Char} {u : List Char} (h : a ∈ pstrip u) :
    a ∈ u := by
  obtain ⟨x, y, hxy⟩ := pstrip_sandwich u
  rw [hxy]
  simp only [List.mem_append]
  exact Or.inl (Or.inr h)

theorem dropWhile_dropWhile (p : Char → Bool) (l : List Char) :
    List.dropWhile p (List.dropWhile p l) = List.dropWhile p l := by
  induction l with
  | nil => simp
  | cons c l ih =>
    by_cases h : p c = true
    · rw [List.dropWhile_cons]
      rw [if_pos h]
      exact ih
    · rw [List.dropWhile_cons, if_neg (by simp [h]), List.dropWhile_cons,
        if_neg (by simp [h])]

theorem dropWhile_self_head (p : Char → Bool) (c : Char) (l : List Char)
    (h : List.dropWhile p (c :: l) = c :: l) : p c = false := by
  by_cases hp : p c = true
  · rw [List.dropWhile_cons, if_pos hp] at h
    have h2 := congrArg List.length h
    have h3 : (List.dropWhile p l).length ≤ l.length :=
      List.Sublist.length_le (List.dropWhile_sublist _)
    simp only [List.length_cons] at h2
    omega
  · simpa using hp

/-- Right-trimming a left-trimmed string keeps it left-trimmed. -/
theorem rtrim_keeps_ltrimmed (p : Char → Bool) (z : List Char)
    (hz : List.dropWhile p z = z) :
    List.dropWhile p ((List.dropWhile p z.reverse).reverse) =
      (List.dropWhile p z.reverse).reverse := by
  cases hr : (List.dropWhile p z.reverse).reverse with
  | nil => simp
  | cons c r2 =>
    have hsplit : z = (List.dropWhile p z.reverse).reverse ++
        (List.takeWhile p z.reverse).reverse := by
      conv_lhs => rw [← List.reverse_reverse z,
        ← List.takeWhile_append_dropWhile (p := p) (l := z.reverse)]
      rw [List.reverse_append]
    rw [hr] at hsplit
    rw [List.cons_append] at hsplit
    have hc : p c = false := by
      apply dropWhile_self_head p c (r2 ++ (List.takeWhile p z.reverse).reverse)
      rw [← hsplit]
      exact hz
    rw [List.dropWhile_cons, if_neg (by simp [hc])]

theorem pstrip_idem (u : List Char) : pstrip (pstrip u) = pstrip u := by
  unfold pstrip
  have hz2 : List.dropWhile isSpaceChar (List.dropWhile isSpaceChar u) =
      List.dropWhile isSpaceChar u := dropWhile_dropWhile _ u
  have hy := rtrim_keeps_ltrimmed isSpaceChar (List.dropWhile isSpaceChar u) hz2
  rw [hy, List.reverse_reverse, dropWhile_dropWhile]

/-- The sentence pieces occur, in order, inside the cursor text. -/
theorem sentAux_embeds :
    ∀ (cs acc : List Char) (skip : Bool),
      Embeds (sentAux cs acc skip) (acc.reverse ++ cs) := by
  intro cs
  induction cs with
  | nil =>
    intro acc skip
    simp only [sentAux]
    rw [List.append_nil]
    have h := Embeds.cons acc.reverse ([] : List Char) (Embeds.nil [])
    simpa using h
  | cons c rest ih =>
    intro acc skip
    simp only [sentAux]
    by_cases h1 : (skip && isSpaceChar c) = true
    · rw [if_pos h1]
      have h2 := Embeds_mono_pre (acc.reverse ++ [c]) (ih [] true)
      simpa [List.append_assoc] using h2
    · rw [if_neg h1]
      by_cases h2 : (isSentEnd c && headIsSpace rest) = true
      · rw [if_pos h2]
        have h3 : Embeds (sentAux rest [] true) rest := by
          simpa using ih [] true
        have h4 := Embeds.cons ((c :: acc).reverse) ([] : List Char) h3
        simpa [List.reverse_cons, List.append_assoc] using h4
      · rw [if_neg h2]
        have h3 := ih (c :: acc) false
        simpa [List.reverse_cons, List.append_assoc] using h3

/-- The comma pieces occur, in order, inside the phrase. -/
theorem commaAux_embeds :
    ∀ (cs acc : List Char) (skip : Bool),
      Embeds (commaAux cs acc skip) (acc.reverse ++ cs) := by
  intro cs
  induction cs with
  | nil =>
    intro acc skip
    simp only [commaAux]
    rw [List.append_nil]
    have h := Embeds.cons acc.reverse ([] : List Char) (Embeds.nil [])
    simpa using h
  | cons c rest ih =>
    intro acc skip
    simp only [commaAux]
    by_cases h1 : (skip && isSpaceChar c) = true
    · rw [if_pos h1]
      have h2 := Embeds_mono_pre (acc.reverse ++ [c]) (ih [] true)
      simpa [List.append_assoc] using h2
    · rw [if_neg h1]
      by_cases h2 : (c == ',') = true
      · rw [if_pos h2]
        have h3 : Embeds (commaAux rest [] true) rest := by
          simpa using ih [] true
        have h4 := Embeds.cons acc.reverse ([] : List Char)
          (Embeds_mono_pre [c] h3)
        simpa [List.append_assoc] using h4
      · rw [if_neg h2]
        have h3 := ih (c :: acc) false
        simpa [List.reverse_cons, List.append_assoc] using h3

/-- No comma survives inside a comma-split piece. -/
theorem commaAux_pieces_no_comma :
    ∀ (cs acc : List Char) (skip : Bool), (',' : Char) ∉ acc →
      ∀ w ∈ commaAux cs acc skip, (',' : Char) ∉ w := by
  intro cs
  induction cs with
  | nil =>
    intro acc skip ha w hw
    simp only [commaAux, List.mem_singleton] at hw
    subst hw
    simpa [List.mem_reverse] using ha
  | cons c rest ih =>
    intro acc skip ha w hw
    simp only [commaAux] at hw
    by_cases h1 : (skip && isSpaceChar c) = true
    · rw [if_pos h1] at hw
      exact ih [] true (by simp) w hw
    · rw [if_neg h1] at hw
      by_cases h2 : (c == ',') = true
      · rw [if_pos h2] at hw
        rcases List.mem_cons.mp hw with hw | hw
        · subst hw; simpa [List.mem_reverse] using ha
        · exact ih [] true (by simp) w hw
      · rw [if_neg h2] at hw
        refine ih (c :: acc) false ?_ w hw
        intro hmem
        rcases List.mem_cons.mp hmem with heq | hmem
        · rw [← heq] at h2; simp at h2
        · exact ha hmem

/-- A phrase with no comma is not split: the separator never fires. -/
theorem commaAux_no_comma_whole :
    ∀ (cs acc : List Char), (',' : Char) ∉ cs →
      commaAux cs acc false = [acc.reverse ++ cs] := by
  intro cs
  induction cs with
  | nil => intro acc h; simp [commaAux]
  | cons c rest ih =>
    intro acc h
    simp only [commaAux, Bool.false_and, Bool.false_eq_true, if_false]
    have hc : ¬ ((c == ',') = true) := by
      simp only [beq_iff_eq]
      intro he
      exact h (he ▸ List.mem_cons_self c rest)
    rw [if_neg hc]
    rw [ih (c :: acc) (fun hm => h (List.mem_cons_of_mem c hm))]
    simp [List.append_assoc]

theorem Embeds_map_pstrip {us : List (List Char)} {t : List Char}
    (h : Embeds us t) : Embeds (us.map pstrip) t := by
  induction h with
  | nil t => exact Embeds.nil _
  | @cons u us2 pre rest h2 ih =>
    obtain ⟨a, b, hab⟩ := pstrip_sandwich u
    have h5 : Embeds (pstrip u :: List.map pstrip us2)
        ((pre ++ a) ++ pstrip u ++ (b ++ rest)) :=
      Embeds.cons (pstrip u) (pre ++ a) (Embeds_mono_pre b ih)
    have heq : pre ++ u ++ rest = (pre ++ a) ++ pstrip u ++ (b ++ rest) := by
      conv_lhs => rw [hab]
      simp [List.append_assoc]
    rw [List.map_cons, heq]
    exact h5

theorem processPhrase_units (m : Nat) (p u : List Char)
    (h : u ∈ processPhrase m p) :
    pstrip u = u ∧ u ≠ [] ∧ (u.length ≤ m ∨ (',' : Char) ∉ u) := by
  unfold processPhrase at h
  by_cases h0 : pstrip p = []
  · rw [if_pos h0] at h; simp at h
  · rw [if_neg h0] at h
    by_cases h1 : m < (pstrip p).length
    · rw [if_pos h1] at h
      unfold commaPieces at h
      rw [List.mem_filter] at h
      obtain ⟨hmem, hne⟩ := h
      rw [List.mem_map] at hmem
      obtain ⟨sp, hsp, rfl⟩ := hmem
      refine ⟨pstrip_idem sp, ?_, Or.inr ?_⟩
      · intro he
        rw [he] at hne
        simp at hne
      · intro hcomma
        have h3 : (',' : Char) ∈ sp := mem_of_mem_pstrip hcomma
        exact commaAux_pieces_no_comma (pstrip p) [] false (by simp) sp hsp h3
    · rw [if_neg h1] at h
      simp only [List.mem_singleton] at h
      subst h
      exact ⟨pstrip_idem p, h0, Or.inl (by omega)⟩

theorem split_phrases_units (text : List Char) (m : Nat) (u : List Char)
    (h : u ∈ split_phrases text m) :
    pstrip u = u ∧ u ≠ [] ∧ (u.length ≤ m ∨ (',' : Char) ∉ u) := by
  unfold split_phrases at h
  rw [List.mem_flatMap] at h
  obtain ⟨p, _, hu⟩ := h
  exact processPhrase_units m p u hu

theorem processPhrase_embeds (m : Nat) (p : List Char) :
    Embeds (processPhrase m p) p := by
  unfold processPhrase
  by_cases h0 : pstrip p = []
  · rw [if_pos h0]; exact Embeds.nil p
  · rw [if_neg h0]
    by_cases h1 : m < (pstrip p).length
    · rw [if_pos h1]
      have h2 : Embeds (commaAux (pstrip p) [] false) (pstrip p) := by
        simpa using commaAux_embeds (pstrip p) [] false
      have h4 := Embeds_filter (fun sp => !sp.isEmpty) (Embeds_map_pstrip h2)
      obtain ⟨a, b, hab⟩ := pstrip_sandwich p
      have h5 := Embeds_mono_post b (Embeds_mono_pre a h4)
      unfold commaPieces
      nth_rewrite 2 [hab]
      simpa [List.append_assoc] using h5
    · rw [if_neg h1]
      obtain ⟨a, b, hab⟩ := pstrip_sandwich p
      have h5 := Embeds.cons (pstrip p) a (Embeds.nil b)
      nth_rewrite 2 [hab]
      exact h5

theorem Embeds_flatMap {f : List Char → List (List Char)}
    (hf : ∀ p, Embeds (f p) p) {ps : List (List Char)} {t : List Char}
    (h : Embeds ps t) : Embeds (ps.flatMap f) t := by
  induction h with
  | nil t => simpa using Embeds.nil t
  | cons u pre h2 ih =>
    rw [List.flatMap_cons]
    have h3 := Embeds_append (hf u) ih
    have h4 := Embeds_mono_pre pre h3
    simpa [List.append_assoc] using h4

theorem split_phrases_embeds (text : List Char) (m : Nat) :
    Embeds (split_phrases text m) text := by
  unfold split_phrases
  have h1 : Embeds (sentAux text [] false) text := by
    simpa using sentAux_embeds text [] false
  exact Embeds_flatMap (processPhrase_embeds m) h1

/-- C7: every unit of the segmenter is non-empty and already stripped
(empty segments are discarded), the units occur in input order as
disjoint substrings of the raw text, the function is pure (a
deterministic function of its input), and an input yielding zero units
makes `main` fail before the engine starts. -/
theorem claim7_segmenter_guarantees (text : List Char) (m : Nat)
    (u : List Char) :
    (u ∈ split_phrases text m → pstrip u = u ∧ u ≠ []) ∧
    Embeds (split_phrases text m) text ∧
    split_phrases text m = split_phrases text m ∧
    (split_phrases text 100 = [] → mainCheck text = .configError) := by
  refine ⟨?_, split_phrases_embeds text m, rfl, ?_⟩
  · intro h
    have h2 := split_phrases_units text m u h
    exact ⟨h2.1, h2.2.1⟩
  · intro h
    unfold mainCheck
    rw [if_pos h]

/-- Witness for C7 on the text `"Hi. Yo."` whose first unit is `"Hi."`,
and on a whitespace-only text which is a startup error. -/
theorem claim7_segmenter_guarantees_witness :
    (pstrip ("Hi.".data) = "Hi.".data ∧ "Hi.".data ≠ []) ∧
    mainCheck ("   ".data) = .configError := by
  constructor
  · exact (claim7_segmenter_guarantees ("Hi. Yo.".data) 100 ("Hi.".data)).1
      (by decide)
  · exact (claim7_segmenter_guarantees ("   ".data) 100 []).2.2.2 (by decide)

/-- A unit of length 300 whose only comma sits at position 2: the
comma split leaves a 296-character sub-unit. -/
def exBadText : List Char :=
  'a' :: 'b' :: ',' :: ' ' :: List.replicate 296 'c'

set_option maxRecDepth 8000 in
/-- C5 counterexample: with the default maximum 100, the 300-character
unit `exBadText` contains a comma boundary (so it is not in the claim's
exception), yet the comma split produces a sub-unit of 296 characters,
exceeding the maximum by 196 — more than any small epsilon. -/
theorem claim5_counterexample :
    List.replicate 296 'c' ∈ split_phrases exBadText 100 ∧
    100 + 96 < (List.replicate 296 'c').length ∧
    (',' : Char) ∈ exBadText ∧ 100 < exBadText.length := by
  refine ⟨by decide, by decide, by decide, by decide⟩

/-- C5 amended: a sub-unit produced by the comma split contains no
comma, so its length is bounded only by the gap between consecutive
comma boundaries, not by the maximum plus an epsilon: every produced
unit either fits the maximum (kept whole) or is comma-free; and a
too-long unit with no comma boundary is kept whole as a single unit. -/
theorem claim5_amended (text p : List Char) (m : Nat) :
    (∀ u ∈ split_phrases text m, u.length ≤ m ∨ (',' : Char) ∉ u) ∧
    (m < (pstrip p).length → (',' : Char) ∉ pstrip p →
      processPhrase m p = [pstrip p]) := by
  constructor
  · intro u hu
    exact (split_phrases_units text m u hu).2.2
  · intro h1 h2
    have h0 : pstrip p ≠ [] := by
      intro he; rw [he] at h1; simp at h1
    unfold processPhrase
    rw [if_neg h0, if_pos h1]
    unfold commaPieces
    rw [commaAux_no_comma_whole (pstrip p) [] h2]
    simp only [List.reverse_nil, List.nil_append, List.map_cons, List.map_nil,
      pstrip_idem]
    rw [List.filter_cons_of_pos (by simpa [List.isEmpty_iff] using h0)]
    rfl

/-- Witness for C5 amended: the first unit of `"hi there."` fits the
maximum, and the comma-free phrase `"abcd"` longer than maximum 2 is
kept whole. -/
theorem claim5_amended_witness :
    (("hi there.".data).length ≤ 100 ∨ (',' : Char) ∉ "hi there.".data) ∧
    processPhrase 2 ("abcd".data) = [pstrip ("abcd".data)] := by
  constructor
  · exact (claim5_amended ("hi there.".data) [] 100).1 ("hi there.".data)
      (by decide)
  · exact (claim5_amended [] ("abcd".data) 2).2 (by decide) (by decide)

theorem joinSpace_nil : joinSpace [] = [] := rfl

theorem joinSpace_single (w : List Char) : joinSpace [w] = w := rfl

theorem joinSpace_cons2 (w w2 : List Char) (ws : List (List Char)) :
    joinSpace (w :: w2 :: ws) = w ++ ' ' :: joinSpace (w2 :: ws) := rfl

theorem lowerChar_toNat (c : Char) :
    (lowerChar c).toNat =
      if 65 ≤ c.toNat ∧ c.toNat ≤ 90 then c.toNat + 32 else c.toNat := by
  unfold lowerChar
  by_cases h : 65 ≤ c.toNat ∧ c.toNat ≤ 90
  · rw [dif_pos h, if_pos h]; rfl
  · rw [dif_neg h, if_neg h]

theorem lowerChar_fixed_of_not {c : Char}
    (h : ¬ (65 ≤ c.toNat ∧ c.toNat ≤ 90)) : lowerChar c = c := by
  unfold lowerChar
  rw [dif_neg h]

theorem lowerChar_idem (c : Char) : lowerChar (lowerChar c) = lowerChar c := by
  by_cases h : 65 ≤ c.toNat ∧ c.toNat ≤ 90
  · apply lowerChar_fixed_of_not
    rw [lowerChar_toNat, if_pos h]
    omega
  · rw [lowerChar_fixed_of_not h, lowerChar_fixed_of_not h]

theorem map_id_of_fixed {α : Type} (f : α → α) :
    ∀ l : List α, (∀ x ∈ l, f x = x) → l.map f = l := by
  intro l
  induction l with
  | nil => intro _; rfl
  | cons x l ih =>
    intro h
    rw [List.map_cons, h x (List.mem_cons_self x l),
      ih (fun a ha => h a (List.mem_cons_of_mem x ha))]

theorem map_joinSpace (f : Char → Char) (hf : f ' ' = ' ') :
    ∀ ws : List (List Char),
      (joinSpace ws).map f = joinSpace (ws.map (List.map f)) := by
  intro ws
  induction ws with
  | nil => rfl
  | cons w ws ih =>
    cases ws with
    | nil => rfl
    | cons w2 ws2 =>
      rw [List.map_cons] at ih
      simp only [List.map_cons, joinSpace_cons2, List.map_append, hf]
      rw [ih]

theorem filter_joinSpace (q : Char → Bool) (hq : q ' ' = true) :
    ∀ ws : List (List Char),
      (joinSpace ws).filter q = joinSpace (ws.map (List.filter q)) := by
  intro ws
  induction ws with
  | nil => rfl
  | cons w ws ih =>
    cases ws with
    | nil => rfl
    | cons w2 ws2 =>
      rw [List.map_cons] at ih
      simp only [List.map_cons, joinSpace_cons2, List.filter_append,
        List.filter_cons_of_pos hq]
      rw [ih]

/-- Splitting a word-prefixed text loads the word into the accumulator. -/
theorem pySplitAux_word_run :
    ∀ (w cs acc : List Char), (∀ c ∈ w, isSpaceChar c = false) →
      pySplitAux (w ++ cs) acc = pySplitAux cs (w.reverse ++ acc) := by
  intro w
  induction w with
  | nil => intro cs acc _; simp
  | cons c w ih =>
    intro cs acc hw
    have hc : isSpaceChar c = false := hw c (List.mem_cons_self c w)
    simp only [List.cons_append, pySplitAux, List.append_eq]
    rw [if_neg (by simp [hc])]
    rw [ih cs (c :: acc) (fun a ha => hw a (List.mem_cons_of_mem c ha))]
    congr 1
    simp

/-- Splitting a space-joined list of nonempty space-free words recovers
exactly those words. -/
theorem pySplit_joinSpace :
    ∀ ws : List (List Char),
      (∀ w ∈ ws, w ≠ [] ∧ ∀ c ∈ w, isSpaceChar c = false) →
      pySplit (joinSpace ws) = ws := by
  intro ws
  induction ws with
  | nil => intro _; rfl
  | cons w ws ih =>
    intro hws
    have hw := hws w (List.mem_cons_self w ws)
    have hrest : ∀ w2 ∈ ws, w2 ≠ [] ∧ ∀ c ∈ w2, isSpaceChar c = false :=
      fun w2 h2 => hws w2 (List.mem_cons_of_mem w h2)
    cases ws with
    | nil =>
      show pySplitAux (joinSpace [w]) [] = [w]
      rw [joinSpace_single]
      have h1 := pySplitAux_word_run w [] [] hw.2
      rw [List.append_nil] at h1
      rw [h1]
      simp only [pySplitAux, List.append_nil]
      rw [if_neg (by simpa using hw.1)]
      simp
    | cons w2 ws2 =>
      show pySplitAux (joinSpace (w :: w2 :: ws2)) [] = w :: w2 :: ws2
      rw [joinSpace_cons2]
      rw [pySplitAux_word_run w (' ' :: joinSpace (w2 :: ws2)) [] hw.2]
      rw [List.append_nil]
      simp only [pySplitAux]
      rw [if_pos (show isSpaceChar ' ' = true from rfl)]
      rw [if_neg (by simpa using hw.1)]
      rw [List.reverse_reverse]
      rw [show pySplitAux (joinSpace (w2 :: ws2)) [] =
        pySplit (joinSpace (w2 :: ws2)) from rfl, ih hrest]

/-- Every character of a produced word comes from the input or the
accumulator. -/
theorem pySplitAux_chars :
    ∀ (cs acc : List Char), ∀ w ∈ pySplitAux cs acc, ∀ a ∈ w,
      a ∈ cs ∨ a ∈ acc := by
  intro cs
  induction cs with
  | nil =>
    intro acc w hw a ha
    simp only [pySplitAux] at hw
    by_cases h : acc = []
    · rw [if_pos h] at hw; simp at hw
    · rw [if_neg h] at hw
      simp only [List.mem_singleton] at hw
      subst hw
      exact Or.inr (List.mem_reverse.mp ha)
  | cons c rest ih =>
    intro acc w hw a ha
    simp only [pySplitAux] at hw
    by_cases hsp : isSpaceChar c = true
    · rw [if_pos hsp] at hw
      by_cases h : acc = []
      · rw [if_pos h] at hw
        rcases ih [] w hw a ha with h2 | h2
        · exact Or.inl (List.mem_cons_of_mem c h2)
        · simp at h2
      · rw [if_neg h] at hw
        rcases List.mem_cons.mp hw with hw | hw
        · subst hw; exact Or.inr (List.mem_reverse.mp ha)
        · rcases ih [] w hw a ha with h2 | h2
          · exact Or.inl (List.mem_cons_of_mem c h2)
          · simp at h2
    · rw [if_neg hsp] at hw
      rcases ih (c :: acc) w hw a ha with h2 | h2
      · exact Or.inl (List.mem_cons_of_mem c h2)
      · rcases List.mem_cons.mp h2 with h3 | h3
        · exact Or.inl (h3 ▸ List.mem_cons_self c rest)
        · exact Or.inr h3

/-- Normalization is idempotent: its output consists of single spaces
between nonempty runs of already-lowercased word characters, which a
second pass leaves untouched. -/
theorem normalize_text_idem (s : List Char) :
    normalize_text (normalize_text s) = normalize_text s := by
  unfold normalize_text
  have hW : ∀ w ∈ pySplit (filterKeep (s.map lowerChar)),
      w ≠ [] ∧ ∀ c ∈ w, isSpaceChar c = false :=
    fun w hw => pySplitAux_words (filterKeep (s.map lowerChar)) [] (by simp) w hw
  have hWchars : ∀ w ∈ pySplit (filterKeep (s.map lowerChar)), ∀ a ∈ w,
      a ∈ filterKeep (s.map lowerChar) := by
    intro w hw a ha
    rcases pySplitAux_chars (filterKeep (s.map lowerChar)) [] w hw a ha with h | h
    · exact h
    · simp at h
  have hword : ∀ w ∈ pySplit (filterKeep (s.map lowerChar)), ∀ a ∈ w,
      isWordChar a = true := by
    intro w hw a ha
    have h1 := hWchars w hw a ha
    unfold filterKeep at h1
    rw [List.mem_filter] at h1
    have h2 := h1.2
    have h3 := (hW w hw).2 a ha
    rw [h3] at h2
    simpa using h2
  have hlowfix : ∀ w ∈ pySplit (filterKeep (s.map lowerChar)), ∀ a ∈ w,
      lowerChar a = a := by
    intro w hw a ha
    have h1 := hWchars w hw a ha
    unfold filterKeep at h1
    rw [List.mem_filter] at h1
    have h2 := h1.1
    rw [List.mem_map] at h2
    obtain ⟨b, -, rfl⟩ := h2
    exact lowerChar_idem b
  have h1 : (joinSpace (pySplit (filterKeep (s.map lowerChar)))).map lowerChar =
      joinSpace (pySplit (filterKeep (s.map lowerChar))) := by
    rw [map_joinSpace lowerChar rfl]
    rw [map_id_of_fixed _ _ (fun w hw => map_id_of_fixed _ w (hlowfix w hw))]
  have h2 : filterKeep (joinSpace (pySplit (filterKeep (s.map lowerChar)))) =
      joinSpace (pySplit (filterKeep (s.map lowerChar))) := by
    unfold filterKeep
    rw [filter_joinSpace _ rfl]
    rw [map_id_of_fixed _ _ (fun w hw => List.filter_eq_self.mpr
      (fun a ha => by simp [hword w hw a ha]))]
  rw [h1, h2, pySplit_joinSpace _ hW]

/-- C8: the match result is invariant under pre-normalizing both
arguments: the matcher first normalizes its inputs, and normalization
is idempotent. -/
theorem claim8_normalization_invariant (s e : List Char) (t : ℚ) :
    texts_match s e t = texts_match (normalize_text s) (normalize_text e) t := by
  unfold texts_match
  rw [normalize_text_idem, normalize_text_idem]

end VoicePrompter
